import Mathlib

/-!
Verification of the NDJSON-tail / SSE fan-out service (TypeScript sources
`src/ringbuffer.ts`, `src/tailer.ts`, `src/index.ts`, `src/types.ts`)
against its natural-language specification.

The TypeScript code is shallowly embedded: each class becomes a Lean
structure, each method a pure function (impure inputs such as `Date.now()`,
`fs.stat` results, file contents and the success of `fs.open` become
explicit parameters).  JS strings are modelled as `List Char`, JS numbers
as `Nat`/`Int` where the code only ever handles integers in range.
-/

/-! ## Ring buffer (`src/ringbuffer.ts`) -/

/-- Model of `ZabbixRtxEnvelope.source` from `src/types.ts`. -/
structure EnvSource where
  file : String
  family : String
deriving DecidableEq, Repr

/-- Model of `ZabbixRtxEnvelope` from `src/types.ts`.  The opaque `record`
payload is modelled as a `String` (the raw NDJSON line). -/
structure Envelope where
  id : Nat
  time : Nat
  source : EnvSource
  record : String
deriving DecidableEq, Repr

/-- The argument of `RingBuffer.push` (`Omit<ZabbixRtxEnvelope,'id'|'time'>`)
together with the impure `Date.now()` value observed during that push. -/
structure PushItem where
  source : EnvSource
  record : String
  time : Nat
deriving DecidableEq, Repr

/-- Model of the `RingBuffer` class state (`src/ringbuffer.ts`).
`buf` has length `cap`; an unwritten slot is `none` (JS `undefined`). -/
structure RingBuffer where
  buf : List (Option Envelope)
  cap : Nat
  head : Nat
  count : Nat
  nextId : Nat
deriving DecidableEq, Repr

/-- The freshly constructed `new RingBuffer(capacity)`.  The constructor's
`capacity <= 0` throw is modelled as the precondition `0 < capacity`
carried by the theorems below. -/
def mkRing (capacity : Nat) : RingBuffer :=
  { buf := List.replicate capacity none
    cap := capacity
    head := 0
    count := 0
    nextId := 1 }

/-- `RingBuffer.push` (`src/ringbuffer.ts` lines 16-26): assign
`id = nextId++`, `time = Date.now()`, write at `head`, advance `head`
modulo `cap`, grow `count` up to `cap`.  Returns the completed envelope
and the new state. -/
def RingBuffer.push (rb : RingBuffer) (item : PushItem) : Envelope × RingBuffer :=
  let env : Envelope :=
    { id := rb.nextId, time := item.time, source := item.source, record := item.record }
  (env,
    { buf := rb.buf.set rb.head (some env)
      cap := rb.cap
      head := (rb.head + 1) % rb.cap
      count := if rb.count < rb.cap then rb.count + 1 else rb.count
      nextId := rb.nextId + 1 })

/-- `RingBuffer.latestId` (`src/ringbuffer.ts` lines 28-30). -/
def RingBuffer.latestId (rb : RingBuffer) : Nat :=
  rb.nextId - 1

/-- A sequence of consecutive pushes; returns the final state and the
envelopes returned by the individual pushes, in push order. -/
def pushMany (rb : RingBuffer) : List PushItem → RingBuffer × List Envelope
  | [] => (rb, [])
  | item :: rest =>
    let p := rb.push item
    let r := pushMany p.2 rest
    (r.1, p.1 :: r.2)

/-- The envelopes that a sequence of pushes produces when the first one is
assigned id `n`: push number `k` (0-based) yields id `n + k`. -/
def envsFrom (n : Nat) : List PushItem → List Envelope
  | [] => []
  | item :: rest =>
    { id := n, time := item.time, source := item.source, record := item.record }
      :: envsFrom (n + 1) rest

/-- The slot index scanned at iteration `i` of `RingBuffer.query`
(`src/ringbuffer.ts` line 40: `(this.head - n + i + this.cap) % this.cap`).
Written with the `+ this.cap` term first so that the subtraction never
truncates on `Nat` (for `count ≤ cap` this agrees with the JS value). -/
def scanIdx (rb : RingBuffer) (i : Nat) : Nat :=
  (rb.head + rb.cap - rb.count + i) % rb.cap

/-- The slots `this.buf[idx]` read by the query scan, oldest first
(an out-of-range read yields `none`, as JS yields `undefined`). -/
def scanSlots (rb : RingBuffer) : List (Option Envelope) :=
  (List.range rb.count).map (fun i => rb.buf.getD (scanIdx rb i) none)

/-- The envelopes resident in the ring, oldest first: the query scan with
the `if (!v) continue` skip and no other filtering. -/
def resident (rb : RingBuffer) : List Envelope :=
  (scanSlots rb).filterMap id

/-- `Math.max(1, Math.min(10000, opts.limit ?? 100))`
(`src/ringbuffer.ts` line 33). -/
def clampedLimit (limit : Option Int) : Int :=
  max 1 (min 10000 (limit.getD 100))

/-- The `if (fam && v.source.family !== fam) continue;` test
(`src/ringbuffer.ts` line 44); `fam` is falsy when absent or `""`. -/
def famSkip (fam : Option String) (e : Envelope) : Bool :=
  match fam with
  | some f => f != "" && e.source.family != f
  | none => false

/-- An envelope survives both `continue` filters of the query loop. -/
def keepEnv (fam : Option String) (sinceId : Nat) (e : Envelope) : Bool :=
  decide (sinceId < e.id) && !famSkip fam e

/-- The scan loop of `RingBuffer.query` (`src/ringbuffer.ts` lines 39-47)
over the slot list, with `limit` the number of items still allowed in
`out`; `break` fires once the accumulated output reaches the limit. -/
def queryGo (fam : Option String) (sinceId : Nat) : Nat → List (Option Envelope) → List Envelope
  | _, [] => []
  | limit, v? :: rest =>
    match v? with
    | none => queryGo fam sinceId limit rest
    | some v =>
      if v.id ≤ sinceId then queryGo fam sinceId limit rest
      else if famSkip fam v then queryGo fam sinceId limit rest
      else if limit ≤ 1 then [v]
      else v :: queryGo fam sinceId (limit - 1) rest

/-- `RingBuffer.query` (`src/ringbuffer.ts` lines 32-49). -/
def RingBuffer.query (rb : RingBuffer) (fam : Option String) (limit : Option Int)
    (sinceId : Option Nat) : List Envelope :=
  queryGo fam (sinceId.getD 0) (clampedLimit limit).toNat (scanSlots rb)

/-- Well-formedness of ring-buffer states; it holds for the fresh ring and
is preserved by `push`. -/
structure RBInv (rb : RingBuffer) : Prop where
  cap_pos : 0 < rb.cap
  buf_len : rb.buf.length = rb.cap
  head_lt : rb.head < rb.cap
  count_le : rb.count ≤ rb.cap
  slots_some : ∀ o ∈ scanSlots rb, o.isSome

/-! ## Line assembly (`NdjsonTailer.onBytes`, `src/tailer.ts` lines 162-176) -/

/-- The `this.buffer.indexOf('\n')` search of the `onBytes` loop: splits
the buffer at its first newline into the prefix before it and the suffix
after it, or `none` when the buffer holds no newline. -/
def splitFirstNl : List Char → Option (List Char × List Char)
  | [] => none
  | c :: cs =>
    if c = '\n' then some ([], cs)
    else (splitFirstNl cs).map (fun p => (c :: p.1, p.2))

/-- The `.replace(/\r$/, '')` of `onBytes` line 167: strip one trailing
carriage return. -/
def lineOfRaw (raw : List Char) : List Char :=
  if raw.getLast? = some '\r' then raw.dropLast else raw

/-- Termination measure of the `onBytes` drain loop: the suffix after the
first newline is strictly shorter than the buffer.  (Stated before `drain`
because its well-founded definition needs it.) -/
theorem splitFirstNl_length (b : List Char) : ∀ p q,
    splitFirstNl b = some (p, q) → q.length < b.length := by
  induction b with
  | nil => intro p q h; simp [splitFirstNl] at h
  | cons c cs ih =>
    intro p q h
    by_cases hc : c = '\n'
    · rw [splitFirstNl, if_pos hc] at h
      simp only [Option.some.injEq, Prod.mk.injEq] at h
      obtain ⟨rfl, rfl⟩ := h
      simp
    · rw [splitFirstNl, if_neg hc, Option.map_eq_some'] at h
      obtain ⟨⟨p', q'⟩, hs, hf⟩ := h
      simp only [Prod.mk.injEq] at hf
      obtain ⟨rfl, rfl⟩ := hf
      have := ih p' q' hs
      simp
      omega

/-- The `while ((idx = this.buffer.indexOf('\n')) !== -1)` loop of
`onBytes` (`src/tailer.ts` lines 166-172): repeatedly split off the prefix
up to the next newline, strip one trailing CR, skip empty lines, and
return the lines emitted as `data` events together with the retained
unterminated suffix. -/
def drain (b : List Char) : List (List Char) × List Char :=
  match h : splitFirstNl b with
  | none => ([], b)
  | some (pre, post) =>
    let line := lineOfRaw pre
    let r := drain post
    (if line = [] then r.1 else line :: r.1, r.2)
termination_by b.length
decreasing_by exact splitFirstNl_length b pre post h

/-- `NdjsonTailer.onBytes` (`src/tailer.ts` lines 162-176): append the
chunk to the assembly buffer and drain complete lines.  (The `newLines`
counter and its `info` event carry no line data and are modelled in
`pollCycle`.) -/
def onBytes (buffer chunk : List Char) : List (List Char) × List Char :=
  drain (buffer ++ chunk)

/-- Feeding a sequence of chunks through `onBytes`, starting from a given
assembly buffer: all emitted lines in order, and the final buffer. -/
def feed (buffer : List Char) : List (List Char) → List (List Char) × List Char
  | [] => ([], buffer)
  | chunk :: rest =>
    let r1 := onBytes buffer chunk
    let r2 := feed r1.2 rest
    (r1.1 ++ r2.1, r2.2)

/-- Splitting a character stream on newline, JS `String.split('\n')`
style: always at least one piece, a trailing newline yields a final empty
piece. -/
def splitOnNl : List Char → List (List Char)
  | [] => [[]]
  | c :: cs =>
    match splitOnNl cs with
    | [] => [[]]
    | p :: ps => if c = '\n' then [] :: p :: ps else (c :: p) :: ps

/-- The reference line sequence in C4's words: split the concatenated
bytes on newline, strip one trailing CR from each piece, and drop empty
pieces. -/
def specSplitLines (b : List Char) : List (List Char) :=
  ((splitOnNl b).map lineOfRaw).filter (fun l => !l.isEmpty)

/-- The amended reference: as `specSplitLines`, but without the final
piece of the split (the unterminated suffix after the last newline),
which the tailer retains in its assembly buffer instead of emitting.
For a stream ending in a newline the two coincide. -/
def emittedRef (b : List Char) : List (List Char) :=
  ((splitOnNl b).dropLast.map lineOfRaw).filter (fun l => !l.isEmpty)

/-- The suffix of the stream after its last newline (the final piece of
the newline split). -/
def lastPiece (b : List Char) : List Char :=
  (splitOnNl b).getLastD []

/-! ## Polling cycle (`NdjsonTailer.loop`, `src/tailer.ts` lines 111-160) -/

/-- The mutable fields of `NdjsonTailer` that the polling cycle touches:
`fd` (whether a handle is open), `offset`, `inode`, `buffer`, and the
constructor option `startAtEnd`. -/
structure TailerState where
  fd : Bool
  offset : Nat
  inode : Option Nat
  buffer : List Char
  startAtEnd : Bool
deriving DecidableEq, Repr

/-- Events emitted by one polling cycle. -/
inductive TEvent where
  | info (msg : String)
  | ready
  | warn (msg : String)
  | data (line : List Char)
deriving DecidableEq, Repr

/-- `NdjsonTailer.openFile` (`src/tailer.ts` lines 92-102) with the stat
result `(ino, size)` and the success of `fs.promises.open` as inputs: on
success adopt the inode, open the handle and set
`offset = startAtEnd ? stats.size : 0`; on failure only warn. -/
def openFileStep (st : TailerState) (ino size : Nat) (openOk : Bool) :
    TailerState × List TEvent :=
  if openOk then
    ({ st with
        inode := some ino
        fd := true
        offset := (if st.startAtEnd then size else 0) },
      [TEvent.ready])
  else
    (st, [TEvent.warn "openFile failed"])

/-- One successful-stat polling cycle of `NdjsonTailer.loop`
(`src/tailer.ts` lines 118-148): `(ino, size)` is the stat result,
`content` the file bytes (reads return `content[offset, size)`), `openOk`
whether a reopen during rotation succeeds.  The 64 KiB chunked read loop
is collapsed into one `onBytes` call on the whole unread range, which by
`drain_append`/`feed_drain` emits exactly the same lines. -/
def pollCycle (st : TailerState) (ino size : Nat) (content : List Char) (openOk : Bool) :
    TailerState × List TEvent :=
  let rot : Bool :=
    match st.inode with
    | some i => i != ino
    | none => false
  let stEv :=
    if rot then
      let closed : TailerState := { st with fd := false, inode := some ino }
      let opened := openFileStep closed ino size openOk
      (opened.1, TEvent.info "inode changed -> reopen" :: opened.2)
    else (st, ([] : List TEvent))
  let st1 := stEv.1
  let evs1 := stEv.2
  if st1.fd = false then (st1, evs1)
  else if size < st1.offset then
    ({ st1 with offset := 0, buffer := [] },
      evs1 ++ [TEvent.info "size shrank -> reset offset"])
  else if st1.offset < size then
    let bytes := (content.take size).drop st1.offset
    let r := onBytes st1.buffer bytes
    ({ st1 with offset := st1.offset + bytes.length, buffer := r.2 },
      evs1 ++ r.1.map TEvent.data
        ++ (if 0 < r.1.length then [TEvent.info "emitted events"] else []))
  else (st1, evs1)

/-! ## Family derivation (`MultiNdjsonTailer.scanNow` data handler,
`src/tailer.ts` lines 310-319) -/

/-- JS `String.prototype.includes`: the needle occurs as a contiguous
substring. -/
def hasSubstr (needle : List Char) : List Char → Bool
  | [] => needle.isEmpty
  | c :: t => needle.isPrefixOf (c :: t) || hasSubstr needle t

/-- The family derivation applied to a file basename (`src/tailer.ts`
lines 312-317): first match wins in the order problems- prefix, history-
prefix, main-process substring, task-manager substring, otherwise
other. -/
def familyOf (base : List Char) : String :=
  if "problems-".toList.isPrefixOf base then "problems"
  else if "history-".toList.isPrefixOf base then "history"
  else if hasSubstr "main-process".toList base then "main-process"
  else if hasSubstr "task-manager".toList base then "task-manager"
  else "other"

/-! ## SSE hub (`SseHub`, `src/index.ts` lines 18-70) -/

/-- The observable state of one connected client sink
(`http.ServerResponse`): the liveness flags read by `safeWrite`, the
pending outbound byte count (`writableLength`), and the frames written so
far (model of `res.write`). -/
structure Sink where
  writableEnded : Bool
  destroyed : Bool
  writable : Bool
  pending : Nat
  written : List String
deriving DecidableEq, Repr

/-- `Number(process.env.SSE_DROP_THRESHOLD || 64 * 1024)` with the
variable unset (`src/index.ts` line 23). -/
def sseDropThresholdDefault : Nat := 64 * 1024

/-- `SseHub.safeWrite` (`src/index.ts` lines 48-59): `none` means the sink
was unregistered (already closed/ended); a returned sink with unchanged
`written` had this frame dropped by backpressure. -/
def safeWrite (threshold : Nat) (s : Sink) (pkt : String) : Option Sink :=
  if s.writableEnded || s.destroyed || !s.writable then none
  else if threshold ≤ s.pending then some s
  else some { s with
      written := s.written ++ [pkt]
      pending := s.pending + pkt.length }

/-- The SSE frame assembled by `SseHub.broadcast`
(`src/index.ts` lines 61-67). -/
def framePkt (event : String) (data : String) (id : Option Nat) : String :=
  (match id with
    | some i => "id: " ++ toString i ++ "\n"
    | none => "")
    ++ (if event ≠ "" then "event: " ++ event ++ "\n" else "")
    ++ ("data: " ++ data ++ "\n\n")

/-- `SseHub.broadcast` over the registered clients (`src/index.ts`
line 68): each sink is written independently; unregistered (dead) sinks
drop out of the registry. -/
def broadcast (threshold : Nat) (clients : List Sink) (event data : String)
    (id : Option Nat) : List Sink :=
  clients.filterMap (fun s => safeWrite threshold s (framePkt event data id))

/-! ## Environment defaults (`src/index.ts` lines 9-15) -/

/-- `Number(process.env.RB_CAPACITY || 1000)` with `RB_CAPACITY` unset
(`src/index.ts` line 12): the falsy `undefined` falls through to the
literal default `1000`. -/
def defaultRbCapacity : Nat := 1000

/-! ## Theorems -/

theorem envsFrom_length (n : Nat) (items : List PushItem) :
    (envsFrom n items).length = items.length := by
  induction items generalizing n with
  | nil => rfl
  | cons it rest ih => simp [envsFrom, ih]

theorem pushMany_envs (rb : RingBuffer) (items : List PushItem) :
    (pushMany rb items).2 = envsFrom rb.nextId items := by
  induction items generalizing rb with
  | nil => rfl
  | cons it rest ih => simp [pushMany, RingBuffer.push, envsFrom, ih]

theorem pushMany_nextId (rb : RingBuffer) (items : List PushItem) :
    (pushMany rb items).1.nextId = rb.nextId + items.length := by
  induction items generalizing rb with
  | nil => simp [pushMany]
  | cons it rest ih =>
    simp [pushMany, RingBuffer.push, ih]
    omega

theorem envsFrom_ids (n : Nat) (items : List PushItem) :
    (envsFrom n items).map (·.id) = List.range' n items.length := by
  induction items generalizing n with
  | nil => rfl
  | cons it rest ih => simp [envsFrom, List.range', ih]

theorem scanSlots_length (rb : RingBuffer) : (scanSlots rb).length = rb.count := by
  simp [scanSlots]

theorem scanSlots_getElem (rb : RingBuffer) (i : Nat) (h : i < (scanSlots rb).length) :
    (scanSlots rb)[i] = rb.buf.getD (scanIdx rb i) none := by
  simp [scanSlots]

theorem mod_add_ne_self {cap h k : Nat} (hh : h < cap) (hk0 : 0 < k) (hk : k < cap) :
    (h + k) % cap ≠ h := by
  intro he
  rcases Nat.lt_or_ge (h + k) cap with hlt | hge
  · rw [Nat.mod_eq_of_lt hlt] at he
    omega
  · rw [Nat.mod_eq_sub_mod hge, Nat.mod_eq_of_lt (by omega)] at he
    omega

theorem all_isSome_eq_map {α : Type} (xs : List (Option α)) (h : ∀ o ∈ xs, o.isSome) :
    xs = (xs.filterMap id).map some := by
  induction xs with
  | nil => rfl
  | cons o rest ih =>
    match o, h o (List.mem_cons_self o rest) with
    | some a, _ =>
      simp only [List.filterMap_cons, id]
      rw [List.map_cons]
      exact congrArg _ (ih fun o ho => h o (List.mem_cons_of_mem _ ho))

theorem resident_length (rb : RingBuffer) (inv : RBInv rb) :
    (resident rb).length = rb.count := by
  have h := all_isSome_eq_map (scanSlots rb) inv.slots_some
  have : (scanSlots rb).length = (resident rb).length := by
    conv_lhs => rw [h]
    simp [resident]
  rw [← this, scanSlots_length]

/-- Effect of one push on the scanned slots: the oldest slot is shifted
out when the ring is full, and the new envelope lands at the end. -/
theorem push_scanSlots (rb : RingBuffer) (it : PushItem) (inv : RBInv rb) :
    scanSlots (rb.push it).2 =
      (scanSlots rb).drop (rb.count + 1 - rb.cap) ++ [some (rb.push it).1] := by
  have hcap := inv.cap_pos
  have hlen := inv.buf_len
  have hhead := inv.head_lt
  have hcount := inv.count_le
  rcases Nat.lt_or_ge rb.count rb.cap with hlt | hge
  · -- not yet full: slots gain one entry at the end
    have hdrop : rb.count + 1 - rb.cap = 0 := by omega
    rw [hdrop, List.drop_zero]
    apply List.ext_getElem
    · simp [scanSlots_length, RingBuffer.push, if_pos hlt]
    intro n h1 h2
    have hn : n < rb.count + 1 := by
      simpa [scanSlots_length, RingBuffer.push, if_pos hlt] using h1
    rw [scanSlots_getElem]
    have hidx : scanIdx (rb.push it).2 n = (rb.head + (rb.cap - rb.count + n)) % rb.cap := by
      simp only [scanIdx, RingBuffer.push, if_pos hlt]
      have e1 : (rb.head + 1) % rb.cap + rb.cap - (rb.count + 1) + n
          = (rb.head + 1) % rb.cap + (rb.cap - rb.count - 1 + n) := by omega
      rw [e1, Nat.mod_add_mod]
      congr 1
      omega
    rcases Nat.lt_or_ge n rb.count with hn' | hn'
    · -- an old slot, untouched by the write at `head`
      have hne : (rb.head + (rb.cap - rb.count + n)) % rb.cap ≠ rb.head :=
        mod_add_ne_self hhead (by omega) (by omega)
      rw [List.getElem_append_left (by simpa [scanSlots_length] using hn')]
      rw [scanSlots_getElem]
      simp only [RingBuffer.push] at hidx ⊢
      rw [hidx]
      have hold : scanIdx rb n = (rb.head + (rb.cap - rb.count + n)) % rb.cap := by
        simp only [scanIdx]
        congr 1
        omega
      rw [hold, List.getD_eq_getElem?_getD, List.getD_eq_getElem?_getD,
        List.getElem?_set_ne (fun h => hne h.symm)]
    · -- the new slot at position `count`
      have hn'' : n = rb.count := by omega
      rw [List.getElem_concat_length _ _ _ (by simpa [scanSlots_length] using hn'')]
      simp only [RingBuffer.push] at hidx ⊢
      rw [hidx, hn'']
      have : (rb.head + (rb.cap - rb.count + rb.count)) % rb.cap = rb.head := by
        have e : rb.cap - rb.count + rb.count = rb.cap := by omega
        rw [e, Nat.add_mod_right, Nat.mod_eq_of_lt hhead]
      rw [this, List.getD_eq_getElem?_getD,
        List.getElem?_set_self (by omega), Option.getD_some]
  · -- full ring: the oldest slot is dropped
    have hcnt : rb.count = rb.cap := by omega
    have hdrop : rb.count + 1 - rb.cap = 1 := by omega
    rw [hdrop]
    apply List.ext_getElem
    · simp [scanSlots_length, RingBuffer.push, hcnt]
      omega
    intro n h1 h2
    have hn : n < rb.cap := by
      rw [scanSlots_length] at h1
      simp only [RingBuffer.push, if_neg (Nat.not_lt.mpr hge)] at h1
      omega
    rw [scanSlots_getElem]
    have hidx : scanIdx (rb.push it).2 n = (rb.head + (1 + n)) % rb.cap := by
      simp only [scanIdx, RingBuffer.push, if_neg (by omega : ¬ rb.count < rb.cap)]
      have e1 : (rb.head + 1) % rb.cap + rb.cap - rb.count + n
          = (rb.head + 1) % rb.cap + (rb.cap - rb.count + n) := by omega
      rw [e1, Nat.mod_add_mod]
      congr 1
      omega
    have hdlen : ((scanSlots rb).drop 1).length = rb.cap - 1 := by
      rw [List.length_drop, scanSlots_length, hcnt]
    rcases Nat.lt_or_ge n (rb.cap - 1) with hn' | hn'
    · have hne : (rb.head + (1 + n)) % rb.cap ≠ rb.head :=
        mod_add_ne_self hhead (by omega) (by omega)
      rw [List.getElem_append_left (by omega : n < ((scanSlots rb).drop 1).length)]
      rw [List.getElem_drop, scanSlots_getElem]
      simp only [RingBuffer.push] at hidx ⊢
      rw [hidx]
      have hold : scanIdx rb (1 + n) = (rb.head + (1 + n)) % rb.cap := by
        simp only [scanIdx]
        congr 1
        omega
      rw [hold, List.getD_eq_getElem?_getD, List.getD_eq_getElem?_getD,
        List.getElem?_set_ne (fun h => hne h.symm)]
    · have hn'' : n = rb.cap - 1 := by omega
      rw [List.getElem_concat_length _ _ _ (by omega : n = ((scanSlots rb).drop 1).length)]
      simp only [RingBuffer.push] at hidx ⊢
      rw [hidx]
      have : (rb.head + (1 + n)) % rb.cap = rb.head := by
        have e : 1 + n = rb.cap := by omega
        rw [e, Nat.add_mod_right, Nat.mod_eq_of_lt hhead]
      rw [this, List.getD_eq_getElem?_getD,
        List.getElem?_set_self (by omega), Option.getD_some]

theorem push_inv (rb : RingBuffer) (it : PushItem) (inv : RBInv rb) :
    RBInv (rb.push it).2 := by
  refine ⟨inv.cap_pos, ?_, ?_, ?_, ?_⟩
  · simp [RingBuffer.push, inv.buf_len]
  · exact Nat.mod_lt _ inv.cap_pos
  · have := inv.count_le
    simp only [RingBuffer.push]
    split <;> omega
  · intro o ho
    rw [push_scanSlots rb it inv] at ho
    rcases List.mem_append.mp ho with h | h
    · exact inv.slots_some o (List.mem_of_mem_drop h)
    · simp only [List.mem_singleton] at h
      simp [h]

theorem push_resident (rb : RingBuffer) (it : PushItem) (inv : RBInv rb) :
    resident (rb.push it).2 =
      (resident rb ++ [(rb.push it).1]).drop (rb.count + 1 - rb.cap) := by
  have hk : rb.count + 1 - rb.cap ≤ (resident rb).length := by
    have := inv.cap_pos
    rw [resident_length rb inv]
    omega
  rw [resident, push_scanSlots rb it inv, List.filterMap_append]
  have hslots : scanSlots rb = (resident rb).map some := all_isSome_eq_map _ inv.slots_some
  rw [hslots, ← List.map_drop, List.filterMap_map]
  rw [List.drop_append_of_le_length hk]
  simp [Function.comp_def, List.filterMap_some]

theorem pushMany_inv (rb : RingBuffer) (items : List PushItem) (inv : RBInv rb) :
    RBInv (pushMany rb items).1 := by
  induction items generalizing rb with
  | nil => exact inv
  | cons it rest ih => exact ih (rb.push it).2 (push_inv rb it inv)

theorem pushMany_cap (rb : RingBuffer) (items : List PushItem) :
    (pushMany rb items).1.cap = rb.cap := by
  induction items generalizing rb with
  | nil => rfl
  | cons it rest ih => simpa [pushMany, RingBuffer.push] using ih (rb.push it).2

theorem pushMany_count (rb : RingBuffer) (items : List PushItem) (inv : RBInv rb) :
    (pushMany rb items).1.count = min (rb.count + items.length) rb.cap := by
  induction items generalizing rb with
  | nil =>
    have := inv.count_le
    simp only [pushMany, List.length_nil, Nat.add_zero]
    omega
  | cons it rest ih =>
    have h := ih (rb.push it).2 (push_inv rb it inv)
    have hle := inv.count_le
    simp only [pushMany] at h ⊢
    rw [h]
    simp only [RingBuffer.push, List.length_cons]
    split <;> omega

theorem pushMany_resident (rb : RingBuffer) (items : List PushItem) (inv : RBInv rb) :
    resident (pushMany rb items).1 =
      (resident rb ++ envsFrom rb.nextId items).drop (rb.count + items.length - rb.cap) := by
  induction items generalizing rb with
  | nil =>
    have := inv.count_le
    simp only [pushMany, envsFrom, List.append_nil, List.length_nil, Nat.add_zero]
    rw [(by omega : rb.count - rb.cap = 0), List.drop_zero]
  | cons it rest ih =>
    have hcap := inv.cap_pos
    have hcount := inv.count_le
    have h := ih (rb.push it).2 (push_inv rb it inv)
    simp only [pushMany] at h ⊢
    rw [h, push_resident rb it inv]
    have hk1 : rb.count + 1 - rb.cap ≤ (resident rb ++ [(rb.push it).1]).length := by
      rw [List.length_append, resident_length rb inv, List.length_singleton]
      omega
    rw [← List.drop_append_of_le_length hk1, List.drop_drop]
    have hcnt1 : (rb.push it).2.count = if rb.count < rb.cap then rb.count + 1 else rb.count := rfl
    have hne : (rb.push it).2.nextId = rb.nextId + 1 := rfl
    have hcap1 : (rb.push it).2.cap = rb.cap := rfl
    rw [hcnt1, hne, hcap1]
    have henv : envsFrom rb.nextId (it :: rest)
        = (rb.push it).1 :: envsFrom (rb.nextId + 1) rest := rfl
    rw [henv]
    have hl : resident rb ++ [(rb.push it).1] ++ envsFrom (rb.nextId + 1) rest
        = resident rb ++ ((rb.push it).1 :: envsFrom (rb.nextId + 1) rest) := by
      simp
    rw [hl]
    congr 1
    simp only [List.length_cons]
    split <;> omega

theorem mkRing_inv (c : Nat) (hc : 0 < c) : RBInv (mkRing c) := by
  refine ⟨hc, ?_, hc, ?_, ?_⟩
  · simp [mkRing]
  · simp [mkRing]
  · intro o ho
    simp [scanSlots, mkRing] at ho

theorem resident_mkRing (c : Nat) : resident (mkRing c) = [] := by
  simp [resident, scanSlots, mkRing]

/-- Resident envelopes after M pushes into a fresh ring of capacity c:
exactly the last `min M c` pushed envelopes, oldest first. -/
theorem resident_after (c : Nat) (items : List PushItem) (hc : 0 < c) :
    resident (pushMany (mkRing c) items).1 =
      (envsFrom 1 items).drop (items.length - c) := by
  have h := pushMany_resident (mkRing c) items (mkRing_inv c hc)
  rw [resident_mkRing] at h
  simpa [mkRing] using h

theorem range'_drop (k : Nat) : ∀ (s n : Nat),
    (List.range' s n).drop k = List.range' (s + k) (n - k) := by
  induction k with
  | zero => simp
  | succ k ih =>
    intro s n
    match n with
    | 0 => simp
    | n + 1 =>
      rw [List.range'_succ, List.drop_succ_cons, ih (s + 1) n]
      congr 1 <;> omega

theorem resident_after_ids (c : Nat) (items : List PushItem) (hc : 0 < c) :
    (resident (pushMany (mkRing c) items).1).map (·.id)
      = List.range' (items.length - c + 1) (min items.length c) := by
  rw [resident_after c items hc, List.map_drop, envsFrom_ids, range'_drop]
  congr 1 <;> omega

theorem queryGo_eq_take_filter (fam : Option String) (sinceId : Nat) :
    ∀ (xs : List (Option Envelope)) (limit : Nat), 1 ≤ limit →
      queryGo fam sinceId limit xs
        = ((xs.filterMap id).filter (keepEnv fam sinceId)).take limit := by
  intro xs
  induction xs with
  | nil => intro limit h; simp [queryGo]
  | cons v? rest ih =>
    intro limit hlim
    obtain ⟨m, rfl⟩ : ∃ m, limit = m + 1 := ⟨limit - 1, by omega⟩
    match v? with
    | none => simpa [queryGo] using ih (m + 1) hlim
    | some v =>
      simp only [queryGo, List.filterMap_cons, id]
      rcases Nat.lt_or_ge sinceId v.id with hid | hid
      · rw [if_neg (by omega)]
        by_cases hf : famSkip fam v
        · rw [if_pos hf, ih (m + 1) hlim]
          have : keepEnv fam sinceId v = false := by
            simp [keepEnv, hf]
          simp [List.filter_cons, this]
        · rw [if_neg hf]
          have hkeep : keepEnv fam sinceId v = true := by
            simp [keepEnv, hf]
            omega
          rw [List.filter_cons_of_pos hkeep]
          rcases Nat.eq_zero_or_pos m with hm | hm
          · subst hm
            simp
          · rw [if_neg (by omega), List.take_succ_cons]
            simp only [Nat.add_sub_cancel]
            rw [ih m (by omega)]
      · rw [if_pos (by omega), ih (m + 1) hlim]
        have : keepEnv fam sinceId v = false := by
          simp [keepEnv]
          omega
        simp [List.filter_cons, this]

theorem clampedLimit_pos (limit : Option Int) : 1 ≤ (clampedLimit limit).toNat := by
  have h : 1 ≤ clampedLimit limit := le_max_left 1 _
  omega

/-- `query` is the clamped-limit truncation of the filtered resident list. -/
theorem query_eq_take_filter (rb : RingBuffer) (fam : Option String) (limit : Option Int)
    (sinceId : Option Nat) :
    rb.query fam limit sinceId
      = ((resident rb).filter (keepEnv fam (sinceId.getD 0))).take (clampedLimit limit).toNat := by
  rw [RingBuffer.query, queryGo_eq_take_filter fam _ _ _ (clampedLimit_pos limit)]
  rfl

theorem resident_pairwise_id (c : Nat) (items : List PushItem) (hc : 0 < c) :
    (resident (pushMany (mkRing c) items).1).Pairwise (fun a b => a.id < b.id) := by
  rw [← List.pairwise_map]
  rw [resident_after_ids c items hc]
  exact List.pairwise_lt_range' _ _

/-- C2: for every sequence of N consecutive pushes on a RingBuffer of any
capacity C > 0, the returned envelopes carry ids 1..N in push order, after
them `latestId()` returns N, and before the first push `latestId()`
returns 0. -/
theorem push_ids_sequential_latestId (c : Nat) (items : List PushItem) (hc : 0 < c) :
    ((pushMany (mkRing c) items).2.map (·.id) = List.range' 1 items.length)
      ∧ (pushMany (mkRing c) items).1.latestId = items.length
      ∧ (mkRing c).latestId = 0 := by
  refine ⟨?_, ?_, rfl⟩
  · rw [pushMany_envs]
    exact envsFrom_ids 1 items
  · simp [RingBuffer.latestId, pushMany_nextId, mkRing]

/-- Witness for C2 at capacity 2 and three concrete pushes. -/
theorem push_ids_sequential_latestId_witness :
    (0 < 2)
      ∧ (((pushMany (mkRing 2)
            [⟨⟨"a", "problems"⟩, "r1", 10⟩,
             ⟨⟨"b", "history"⟩, "r2", 11⟩,
             ⟨⟨"c", "other"⟩, "r3", 12⟩]).2.map (·.id)
          = List.range' 1 3)
        ∧ (pushMany (mkRing 2)
            [⟨⟨"a", "problems"⟩, "r1", 10⟩,
             ⟨⟨"b", "history"⟩, "r2", 11⟩,
             ⟨⟨"c", "other"⟩, "r3", 12⟩]).1.latestId = 3
        ∧ (mkRing 2).latestId = 0) :=
  ⟨by decide,
   push_ids_sequential_latestId 2
     [⟨⟨"a", "problems"⟩, "r1", 10⟩,
      ⟨⟨"b", "history"⟩, "r2", 11⟩,
      ⟨⟨"c", "other"⟩, "r3", 12⟩] (by decide)⟩

/-- C3: for every reachable RingBuffer state and every `query` call with an
integer limit, every returned envelope has id > sinceId (default 0), the
returned ids are strictly ascending with no duplicates, every returned
envelope matches the family filter when a (non-empty) one is given, and
the result length is at most min of the clamped limit (default 100,
clamped to [1,10000]) and the number of resident envelopes with id >
sinceId matching the family. -/
theorem query_filter_bounds (c : Nat) (items : List PushItem) (fam : Option String)
    (limit : Option Int) (sinceId : Option Nat) (hc : 0 < c) (hfam : fam ≠ some "") :
    (∀ e ∈ (pushMany (mkRing c) items).1.query fam limit sinceId, sinceId.getD 0 < e.id)
      ∧ (((pushMany (mkRing c) items).1.query fam limit sinceId).map (·.id)).Pairwise (· < ·)
      ∧ (((pushMany (mkRing c) items).1.query fam limit sinceId).map (·.id)).Nodup
      ∧ (∀ f, fam = some f →
          ∀ e ∈ (pushMany (mkRing c) items).1.query fam limit sinceId, e.source.family = f)
      ∧ ((pushMany (mkRing c) items).1.query fam limit sinceId).length
          ≤ min (clampedLimit limit).toNat
              ((resident (pushMany (mkRing c) items).1).filter
                (keepEnv fam (sinceId.getD 0))).length := by
  have hq := query_eq_take_filter (pushMany (mkRing c) items).1 fam limit sinceId
  have hsub : ((pushMany (mkRing c) items).1.query fam limit sinceId).Sublist
      (resident (pushMany (mkRing c) items).1) := by
    rw [hq]
    exact (List.take_sublist _ _).trans (List.filter_sublist _)
  have hmem_keep : ∀ e ∈ (pushMany (mkRing c) items).1.query fam limit sinceId,
      keepEnv fam (sinceId.getD 0) e = true := by
    intro e he
    rw [hq] at he
    have := (List.take_sublist _ _).mem he
    exact (List.mem_filter.mp this).2
  have hpw : (((pushMany (mkRing c) items).1.query fam limit sinceId).map (·.id)).Pairwise (· < ·) := by
    rw [List.pairwise_map]
    exact (resident_pairwise_id c items hc).sublist hsub
  refine ⟨?_, hpw, ?_, ?_, ?_⟩
  · intro e he
    have h := hmem_keep e he
    simp only [keepEnv, Bool.and_eq_true, decide_eq_true_eq] at h
    exact h.1
  · exact hpw.imp (fun h => Nat.ne_of_lt h)
  · rintro f rfl e he
    have h := hmem_keep e he
    simp only [keepEnv, Bool.and_eq_true, Bool.not_eq_true'] at h
    have hf : (f != "") = true := by
      simp only [ne_eq, Option.some.injEq] at hfam
      simpa using hfam
    rcases h with ⟨-, hskip⟩
    simp only [famSkip, hf, Bool.true_and] at hskip
    exact bne_eq_false_iff_eq.mp hskip
  · rw [hq, List.length_take]

/-- Witness for C3 at a concrete reachable state and query. -/
theorem query_filter_bounds_witness :
    (∀ e ∈ (pushMany (mkRing 2)
        [⟨⟨"a", "problems"⟩, "r1", 10⟩,
         ⟨⟨"b", "history"⟩, "r2", 11⟩,
         ⟨⟨"c", "problems"⟩, "r3", 12⟩]).1.query (some "problems") (some 10) (some 1),
        (some 1 : Option Nat).getD 0 < e.id)
      ∧ (((pushMany (mkRing 2)
        [⟨⟨"a", "problems"⟩, "r1", 10⟩,
         ⟨⟨"b", "history"⟩, "r2", 11⟩,
         ⟨⟨"c", "problems"⟩, "r3", 12⟩]).1.query (some "problems") (some 10) (some 1)).map
          (·.id)).Pairwise (· < ·)
      ∧ (((pushMany (mkRing 2)
        [⟨⟨"a", "problems"⟩, "r1", 10⟩,
         ⟨⟨"b", "history"⟩, "r2", 11⟩,
         ⟨⟨"c", "problems"⟩, "r3", 12⟩]).1.query (some "problems") (some 10) (some 1)).map
          (·.id)).Nodup
      ∧ (∀ f, (some "problems" : Option String) = some f →
          ∀ e ∈ (pushMany (mkRing 2)
        [⟨⟨"a", "problems"⟩, "r1", 10⟩,
         ⟨⟨"b", "history"⟩, "r2", 11⟩,
         ⟨⟨"c", "problems"⟩, "r3", 12⟩]).1.query (some "problems") (some 10) (some 1),
          e.source.family = f)
      ∧ ((pushMany (mkRing 2)
        [⟨⟨"a", "problems"⟩, "r1", 10⟩,
         ⟨⟨"b", "history"⟩, "r2", 11⟩,
         ⟨⟨"c", "problems"⟩, "r3", 12⟩]).1.query (some "problems") (some 10) (some 1)).length
          ≤ min (clampedLimit (some 10)).toNat
              ((resident (pushMany (mkRing 2)
        [⟨⟨"a", "problems"⟩, "r1", 10⟩,
         ⟨⟨"b", "history"⟩, "r2", 11⟩,
         ⟨⟨"c", "problems"⟩, "r3", 12⟩]).1).filter
                (keepEnv (some "problems") ((some 1 : Option Nat).getD 0))).length :=
  query_filter_bounds 2
    [⟨⟨"a", "problems"⟩, "r1", 10⟩,
     ⟨⟨"b", "history"⟩, "r2", 11⟩,
     ⟨⟨"c", "problems"⟩, "r3", 12⟩]
    (some "problems") (some 10) (some 1) (by decide) (by decide)

/-- C5: for every capacity C > 0 and every M ≥ C pushes into a fresh ring,
the envelopes resident afterwards are exactly the C most recently pushed
ones (ids M-C+1 .. M, in ascending order), and an unfiltered `query`
observes exactly (a limit-truncation of) that list. -/
theorem ring_retains_last_capacity (c : Nat) (items : List PushItem)
    (hc : 0 < c) (hM : c ≤ items.length) :
    resident (pushMany (mkRing c) items).1 = (envsFrom 1 items).drop (items.length - c)
      ∧ (resident (pushMany (mkRing c) items).1).map (·.id)
          = List.range' (items.length - c + 1) c
      ∧ (pushMany (mkRing c) items).1.query none none none
          = ((envsFrom 1 items).drop (items.length - c)).take 100 := by
  have hids : (resident (pushMany (mkRing c) items).1).map (·.id)
      = List.range' (items.length - c + 1) c := by
    rw [resident_after_ids c items hc, Nat.min_eq_right hM]
  refine ⟨resident_after c items hc, hids, ?_⟩
  rw [query_eq_take_filter]
  have hfil : (resident (pushMany (mkRing c) items).1).filter (keepEnv none 0)
      = resident (pushMany (mkRing c) items).1 := by
    apply List.filter_eq_self.mpr
    intro e he
    have hin : e.id ∈ (resident (pushMany (mkRing c) items).1).map (·.id) :=
      List.mem_map_of_mem (·.id) he
    rw [hids] at hin
    rcases List.mem_range'.mp hin with ⟨i, hi, hei⟩
    simp only [keepEnv, famSkip, Bool.not_false, Bool.and_true, decide_eq_true_eq]
    omega
  simp only [Option.getD_none, hfil]
  rw [resident_after c items hc]
  rfl

/-- Witness for C5 at capacity 2 and three pushes. -/
theorem ring_retains_last_capacity_witness :
    resident (pushMany (mkRing 2)
        [⟨⟨"a", "problems"⟩, "r1", 10⟩,
         ⟨⟨"b", "history"⟩, "r2", 11⟩,
         ⟨⟨"c", "other"⟩, "r3", 12⟩]).1
      = (envsFrom 1
        [⟨⟨"a", "problems"⟩, "r1", 10⟩,
         ⟨⟨"b", "history"⟩, "r2", 11⟩,
         ⟨⟨"c", "other"⟩, "r3", 12⟩]).drop 1
      ∧ (resident (pushMany (mkRing 2)
        [⟨⟨"a", "problems"⟩, "r1", 10⟩,
         ⟨⟨"b", "history"⟩, "r2", 11⟩,
         ⟨⟨"c", "other"⟩, "r3", 12⟩]).1).map (·.id) = List.range' 2 2
      ∧ (pushMany (mkRing 2)
        [⟨⟨"a", "problems"⟩, "r1", 10⟩,
         ⟨⟨"b", "history"⟩, "r2", 11⟩,
         ⟨⟨"c", "other"⟩, "r3", 12⟩]).1.query none none none
          = ((envsFrom 1
        [⟨⟨"a", "problems"⟩, "r1", 10⟩,
         ⟨⟨"b", "history"⟩, "r2", 11⟩,
         ⟨⟨"c", "other"⟩, "r3", 12⟩]).drop 1).take 100 :=
  ring_retains_last_capacity 2
    [⟨⟨"a", "problems"⟩, "r1", 10⟩,
     ⟨⟨"b", "history"⟩, "r2", 11⟩,
     ⟨⟨"c", "other"⟩, "r3", 12⟩] (by decide) (by decide)

theorem splitFirstNl_some (b : List Char) :
    ∀ p q, splitFirstNl b = some (p, q) → b = p ++ '\n' :: q ∧ '\n' ∉ p := by
  induction b with
  | nil => intro p q h; simp [splitFirstNl] at h
  | cons c cs ih =>
    intro p q h
    by_cases hc : c = '\n'
    · rw [splitFirstNl, if_pos hc] at h
      simp only [Option.some.injEq, Prod.mk.injEq] at h
      obtain ⟨rfl, rfl⟩ := h
      simp [hc]
    · rw [splitFirstNl, if_neg hc, Option.map_eq_some'] at h
      obtain ⟨⟨p', q'⟩, hs, hf⟩ := h
      simp only [Prod.mk.injEq] at hf
      obtain ⟨rfl, rfl⟩ := hf
      obtain ⟨hb, hnp⟩ := ih p' q' hs
      refine ⟨by rw [hb]; rfl, ?_⟩
      intro hmem
      rcases List.mem_cons.mp hmem with h1 | h1
      · exact hc h1.symm
      · exact hnp h1

theorem splitFirstNl_none (b : List Char) :
    splitFirstNl b = none ↔ '\n' ∉ b := by
  induction b with
  | nil => simp [splitFirstNl]
  | cons c cs ih =>
    by_cases hc : c = '\n'
    · simp [splitFirstNl, hc]
    · rw [splitFirstNl, if_neg hc, Option.map_eq_none', ih]
      constructor
      · intro h hm
        rcases List.mem_cons.mp hm with h1 | h1
        · exact hc h1.symm
        · exact h h1
      · intro h hm
        exact h (List.mem_cons_of_mem c hm)

theorem splitOnNl_ne_nil (b : List Char) : splitOnNl b ≠ [] := by
  match b with
  | [] => simp [splitOnNl]
  | c :: cs =>
    rw [splitOnNl]
    match h : splitOnNl cs with
    | [] => simp
    | p :: ps =>
      by_cases hc : c = '\n' <;> simp [hc]

theorem splitOnNl_no_nl (b : List Char) (h : '\n' ∉ b) : splitOnNl b = [b] := by
  induction b with
  | nil => rfl
  | cons c cs ih =>
    have hc : ¬ c = '\n' := fun he => h (he ▸ List.mem_cons_self c cs)
    have hcs : '\n' ∉ cs := fun hm => h (List.mem_cons_of_mem c hm)
    rw [splitOnNl, ih hcs]
    simp [hc]

theorem splitOnNl_shape (p q : List Char) (hp : '\n' ∉ p) :
    splitOnNl (p ++ '\n' :: q) = p :: splitOnNl q := by
  induction p with
  | nil =>
    rw [List.nil_append, splitOnNl]
    match h : splitOnNl q with
    | [] => exact absurd h (splitOnNl_ne_nil q)
    | x :: xs => simp
  | cons c cs ih =>
    have hc : ¬ c = '\n' := fun he => hp (he ▸ List.mem_cons_self c cs)
    have hcs : '\n' ∉ cs := fun hm => hp (List.mem_cons_of_mem c hm)
    rw [List.cons_append, splitOnNl, ih hcs]
    simp [hc]

theorem splitFirstNl_shape (p q : List Char) (hp : '\n' ∉ p) :
    splitFirstNl (p ++ '\n' :: q) = some (p, q) := by
  induction p with
  | nil => simp [splitFirstNl]
  | cons c cs ih =>
    have hc : ¬ c = '\n' := fun he => hp (he ▸ List.mem_cons_self c cs)
    have hcs : '\n' ∉ cs := fun hm => hp (List.mem_cons_of_mem c hm)
    rw [List.cons_append, splitFirstNl, if_neg hc, ih hcs]
    rfl

theorem drain_of_none (b : List Char) (h : splitFirstNl b = none) :
    drain b = ([], b) := by
  rw [drain, h]

theorem drain_of_some (b pre post : List Char) (h : splitFirstNl b = some (pre, post)) :
    drain b = (if lineOfRaw pre = [] then (drain post).1 else lineOfRaw pre :: (drain post).1,
      (drain post).2) := by
  rw [drain, h]

/-- What one full drain emits and retains, in terms of the newline split:
all pieces but the last (CR-stripped, empties dropped) are emitted and the
last piece is retained. -/
theorem drain_spec (b : List Char) : drain b = (emittedRef b, lastPiece b) := by
  generalize hn : b.length = n
  induction n using Nat.strong_induction_on generalizing b with
  | _ n ih =>
    match hs : splitFirstNl b with
    | none =>
      have hnl : '\n' ∉ b := (splitFirstNl_none b).mp hs
      rw [drain_of_none b hs, emittedRef, lastPiece, splitOnNl_no_nl b hnl]
      simp
    | some (pre, post) =>
      obtain ⟨hb, hpre⟩ := splitFirstNl_some b pre post hs
      have hlen : post.length < n := by
        rw [← hn]
        exact splitFirstNl_length b pre post hs
      have IH := ih post.length hlen post rfl
      rw [drain_of_some b pre post hs, IH, hb]
      have hsplit : splitOnNl (pre ++ '\n' :: post) = pre :: splitOnNl post :=
        splitOnNl_shape pre post hpre
      simp only [emittedRef, lastPiece, hsplit]
      have hne : splitOnNl post ≠ [] := splitOnNl_ne_nil post
      rw [List.dropLast_cons_of_ne_nil hne]
      have hlast : (pre :: splitOnNl post).getLastD ([] : List Char)
          = (splitOnNl post).getLastD [] := by
        match hsp : splitOnNl post with
        | [] => exact absurd hsp hne
        | x :: xs =>
          rw [List.getLastD_eq_getLast?, List.getLastD_eq_getLast?, List.getLast?_cons_cons]
      rw [hlast]
      simp only [List.map_cons, List.filter_cons]
      by_cases hl : lineOfRaw pre = []
      · simp [hl]
      · simp [hl, List.isEmpty_iff]

/-- The retained buffer after a drain never contains a newline. -/
theorem drain_no_nl (b : List Char) : '\n' ∉ (drain b).2 := by
  generalize hn : b.length = n
  induction n using Nat.strong_induction_on generalizing b with
  | _ n ih =>
    match hs : splitFirstNl b with
    | none =>
      rw [drain_of_none b hs]
      exact (splitFirstNl_none b).mp hs
    | some (pre, post) =>
      have hlen : post.length < n := by
        rw [← hn]
        exact splitFirstNl_length b pre post hs
      rw [drain_of_some b pre post hs]
      exact ih post.length hlen post rfl

theorem drain_no_nl_eq (b : List Char) (h : '\n' ∉ b) : drain b = ([], b) :=
  drain_of_none b ((splitFirstNl_none b).mpr h)

/-- Draining `b ++ c` is draining `b` and then draining the residue with
`c` appended: chunk boundaries do not affect what is emitted. -/
theorem drain_append (b c : List Char) :
    drain (b ++ c)
      = ((drain b).1 ++ (drain ((drain b).2 ++ c)).1, (drain ((drain b).2 ++ c)).2) := by
  generalize hn : b.length = n
  induction n using Nat.strong_induction_on generalizing b with
  | _ n ih =>
    match hs : splitFirstNl b with
    | none =>
      rw [drain_of_none b hs]
      simp
    | some (pre, post) =>
      obtain ⟨hb, hpre⟩ := splitFirstNl_some b pre post hs
      have hlen : post.length < n := by
        rw [← hn]
        exact splitFirstNl_length b pre post hs
      have hbc : b ++ c = pre ++ '\n' :: (post ++ c) := by
        rw [hb]
        simp
      have hsbc : splitFirstNl (b ++ c) = some (pre, post ++ c) := by
        rw [hbc]
        exact splitFirstNl_shape pre (post ++ c) hpre
      rw [drain_of_some b pre post hs, drain_of_some (b ++ c) pre (post ++ c) hsbc]
      have IH := ih post.length hlen post rfl
      rw [IH]
      by_cases hl : lineOfRaw pre = [] <;> simp [hl]

/-- Feeding chunks one by one equals one drain of the concatenation,
provided the starting buffer holds no newline (which is invariant). -/
theorem feed_drain (chunks : List (List Char)) :
    ∀ buffer : List Char, '\n' ∉ buffer →
      feed buffer chunks = drain (buffer ++ chunks.flatten) := by
  induction chunks with
  | nil =>
    intro buffer hb
    rw [feed, List.flatten_nil, List.append_nil, drain_no_nl_eq buffer hb]
  | cons chunk rest ih =>
    intro buffer hb
    rw [feed, List.flatten_cons]
    have h1 : onBytes buffer chunk = drain (buffer ++ chunk) := rfl
    have h2 : '\n' ∉ (drain (buffer ++ chunk)).2 := drain_no_nl (buffer ++ chunk)
    rw [h1, ih (drain (buffer ++ chunk)).2 h2]
    have hassoc : buffer ++ (chunk ++ rest.flatten) = (buffer ++ chunk) ++ rest.flatten := by
      simp
    rw [hassoc, drain_append (buffer ++ chunk) rest.flatten]

theorem splitOnNl_concat_nl (u : List Char) :
    splitOnNl (u ++ ['\n']) = splitOnNl u ++ [[]] := by
  induction u with
  | nil => rfl
  | cons c cs ih =>
    rw [List.cons_append, splitOnNl, ih]
    match hs : splitOnNl cs with
    | [] => exact absurd hs (splitOnNl_ne_nil cs)
    | p :: ps =>
      rw [splitOnNl, hs]
      by_cases hc : c = '\n' <;> simp [hc]

theorem lineOfRaw_nil : lineOfRaw [] = [] := rfl

/-- On a stream ending in a newline the C4 split formula and the amended
one (that drops the final unterminated piece) coincide: the final piece is
empty and was dropped by the empty-line filter anyway. -/
theorem specSplitLines_terminated (b : List Char) (h : b.getLast? = some '\n') :
    specSplitLines b = emittedRef b := by
  have hne : b ≠ [] := by rintro rfl; simp at h
  obtain ⟨u, rfl⟩ : ∃ u, b = u ++ ['\n'] := by
    refine ⟨b.dropLast, ?_⟩
    have h2 := List.dropLast_append_getLast hne
    have h3 : b.getLast hne = '\n' := by
      rw [List.getLast?_eq_getLast b hne] at h
      exact Option.some.inj h
    conv_lhs => rw [← h2]
    rw [h3]
  rw [specSplitLines, emittedRef, splitOnNl_concat_nl, List.dropLast_concat]
  rw [List.map_append, List.filter_append]
  simp [lineOfRaw_nil]

/-- C4 (as stated) fails: for the single chunk "a" (no terminating
newline) the tailer emits nothing — the text stays in the assembly
buffer — while the claim's split formula yields the line "a". -/
theorem emitted_lines_split_counterexample :
    (feed [] [['a']]).1 ≠ specSplitLines ([['a']] : List (List Char)).flatten := by
  have h1 : feed [] [['a']] = drain ([] ++ ([['a']] : List (List Char)).flatten) :=
    feed_drain [['a']] [] (by simp)
  have h2 : drain ([] ++ ([['a']] : List (List Char)).flatten)
      = (emittedRef ['a'], lastPiece ['a']) := drain_spec ['a']
  rw [h1, h2]
  decide

/-- C4 amended: for every byte stream fed to a FileTailer, however it is
segmented into chunks, the emitted lines equal the claim's split formula
applied after dropping the final unterminated piece (which stays in the
assembly buffer); when the concatenated stream ends with a newline this
is exactly the claim's formula (split on newline, strip one trailing CR,
drop empty pieces). -/
theorem emitted_lines_split_amended (chunks : List (List Char)) :
    ((feed [] chunks).1 = emittedRef chunks.flatten
      ∧ (feed [] chunks).2 = lastPiece chunks.flatten)
      ∧ (chunks.flatten.getLast? = some '\n' →
          (feed [] chunks).1 = specSplitLines chunks.flatten) := by
  have h1 : feed [] chunks = drain ([] ++ chunks.flatten) :=
    feed_drain chunks [] (by simp)
  rw [List.nil_append] at h1
  rw [h1, drain_spec chunks.flatten]
  refine ⟨⟨rfl, rfl⟩, fun hterm => ?_⟩
  rw [specSplitLines_terminated chunks.flatten hterm]

/-- Witness for C4 (amended) on the chunked stream "ab\r" / "\nc\n\n":
two lines "ab" and "c" are emitted and both formulas agree. -/
theorem emitted_lines_split_amended_witness :
    (((feed [] [['a', 'b', '\r'], ['\n', 'c', '\n', '\n']]).1
        = emittedRef ([['a', 'b', '\r'], ['\n', 'c', '\n', '\n']] : List (List Char)).flatten
      ∧ (feed [] [['a', 'b', '\r'], ['\n', 'c', '\n', '\n']]).2
        = lastPiece ([['a', 'b', '\r'], ['\n', 'c', '\n', '\n']] : List (List Char)).flatten)
      ∧ (feed [] [['a', 'b', '\r'], ['\n', 'c', '\n', '\n']]).1
        = specSplitLines ([['a', 'b', '\r'], ['\n', 'c', '\n', '\n']] : List (List Char)).flatten) :=
  ⟨(emitted_lines_split_amended [['a', 'b', '\r'], ['\n', 'c', '\n', '\n']]).1,
   (emitted_lines_split_amended [['a', 'b', '\r'], ['\n', 'c', '\n', '\n']]).2 (by decide)⟩

/-- C10: after every `onBytes` call the assembly buffer holds no newline:
all complete lines in the bytes received so far have been emitted (or
dropped when empty) and only the unterminated suffix after the last
newline is retained. -/
theorem onBytes_buffer_no_newline (buffer chunk : List Char) :
    '\n' ∉ (onBytes buffer chunk).2
      ∧ onBytes buffer chunk
          = (emittedRef (buffer ++ chunk), lastPiece (buffer ++ chunk)) :=
  ⟨drain_no_nl (buffer ++ chunk), drain_spec (buffer ++ chunk)⟩

/-- C7: whenever a polling cycle (with an open handle and no concurrent
rotation) observes a file size strictly below the current offset, it
resets the offset to 0, clears the line-assembly buffer, and emits an
info event; no data event is emitted in that cycle and the pre-truncation
partial line is gone from the buffer. -/
theorem truncation_resets_offset_buffer (st : TailerState) (ino size : Nat)
    (content : List Char) (openOk : Bool)
    (hrot : st.inode = none ∨ st.inode = some ino)
    (hfd : st.fd = true) (hsz : size < st.offset) :
    pollCycle st ino size content openOk
        = ({ st with offset := 0, buffer := [] },
            [TEvent.info "size shrank -> reset offset"])
      ∧ ∀ l, TEvent.data l ∉ (pollCycle st ino size content openOk).2 := by
  have hrot' : (match st.inode with | some i => i != ino | none => false) = false := by
    rcases hrot with h | h <;> simp [h]
  have hmain : pollCycle st ino size content openOk
      = ({ st with offset := 0, buffer := [] },
          [TEvent.info "size shrank -> reset offset"]) := by
    simp [pollCycle, hrot', hfd, hsz]
  refine ⟨hmain, ?_⟩
  rw [hmain]
  intro l hl
  simp at hl

/-- Witness for C7 at a concrete truncated state. -/
theorem truncation_resets_offset_buffer_witness :
    pollCycle ⟨true, 7, some 5, ['x'], true⟩ 5 3 ['a', 'b', 'c'] true
        = ({ fd := true, offset := 0, inode := some 5, buffer := [], startAtEnd := true },
            [TEvent.info "size shrank -> reset offset"])
      ∧ ∀ l, TEvent.data l ∉ (pollCycle ⟨true, 7, some 5, ['x'], true⟩ 5 3 ['a', 'b', 'c'] true).2 :=
  truncation_resets_offset_buffer ⟨true, 7, some 5, ['x'], true⟩ 5 3 ['a', 'b', 'c'] true
    (Or.inr rfl) rfl (by decide)

/-- C1 (as stated) fails: on a rotation with `startAtEnd = true` (the
configuration the program runs with) the reopen sets the offset to the
new file's size, not 0, and the buffered partial line is retained, not
discarded. -/
theorem rotation_reopen_counterexample :
    ¬ ((pollCycle ⟨true, 5, some 1, ['x'], true⟩ 2 3 ['a', 'b', 'c'] true).1.offset = 0
        ∧ (pollCycle ⟨true, 5, some 1, ['x'], true⟩ 2 3 ['a', 'b', 'c'] true).1.buffer = []) := by
  decide

/-- C1 amended: when a polling cycle observes an inode change and the
reopen succeeds, it closes the handle, adopts the new inode and reopens —
but at offset `stats.size` when `startAtEnd` is true (offset 0 only when
`startAtEnd` is false), and the previously buffered partial line stays in
the assembly buffer in either case. -/
theorem rotation_adopts_inode_keeps_buffer (st : TailerState) (i ino size : Nat)
    (content : List Char) (hin : st.inode = some i) (hne : i ≠ ino) :
    (st.startAtEnd = true →
        pollCycle st ino size content true
          = ({ st with fd := true, inode := some ino, offset := size },
              [TEvent.info "inode changed -> reopen", TEvent.ready]))
      ∧ (st.startAtEnd = false → size = 0 →
        pollCycle st ino size content true
          = ({ st with fd := true, inode := some ino, offset := 0 },
              [TEvent.info "inode changed -> reopen", TEvent.ready])) := by
  have hrot' : (match st.inode with | some i' => i' != ino | none => false) = true := by
    simp [hin, hne]
  constructor
  · intro hsae
    simp [pollCycle, hrot', openFileStep, hsae]
  · intro hsae hsz
    subst hsz
    simp [pollCycle, hrot', openFileStep, hsae]

/-- Witness for C1 (amended) at a concrete rotation with `startAtEnd`. -/
theorem rotation_adopts_inode_keeps_buffer_witness :
    pollCycle ⟨true, 5, some 1, ['x'], true⟩ 2 3 ['a', 'b', 'c'] true
      = ({ fd := true, offset := 3, inode := some 2, buffer := ['x'], startAtEnd := true },
          [TEvent.info "inode changed -> reopen", TEvent.ready]) :=
  (rotation_adopts_inode_keeps_buffer ⟨true, 5, some 1, ['x'], true⟩ 1 2 3
    ['a', 'b', 'c'] rfl (by decide)).1 rfl

/-- C6: the family attached to data events is computed first-match-wins
over: prefix problems- ↦ problems, prefix history- ↦ history, substring
main-process ↦ main-process, substring task-manager ↦ task-manager,
otherwise other; in particular a `problems-*-main-process-N.ndjson`
basename is classified as problems, not main-process. -/
theorem family_first_match (base : List Char) :
    ("problems-".toList.isPrefixOf base = true → familyOf base = "problems")
      ∧ ("problems-".toList.isPrefixOf base = false →
          "history-".toList.isPrefixOf base = true → familyOf base = "history")
      ∧ ("problems-".toList.isPrefixOf base = false →
          "history-".toList.isPrefixOf base = false →
          hasSubstr "main-process".toList base = true → familyOf base = "main-process")
      ∧ ("problems-".toList.isPrefixOf base = false →
          "history-".toList.isPrefixOf base = false →
          hasSubstr "main-process".toList base = false →
          hasSubstr "task-manager".toList base = true → familyOf base = "task-manager")
      ∧ ("problems-".toList.isPrefixOf base = false →
          "history-".toList.isPrefixOf base = false →
          hasSubstr "main-process".toList base = false →
          hasSubstr "task-manager".toList base = false → familyOf base = "other")
      ∧ familyOf "problems-host1-main-process-3.ndjson".toList = "problems" := by
  refine ⟨?_, ?_, ?_, ?_, ?_, by decide⟩
  · intro h1
    rw [familyOf, if_pos h1]
  · intro h1 h2
    rw [familyOf, if_neg (by rw [h1]; decide), if_pos h2]
  · intro h1 h2 h3
    rw [familyOf, if_neg (by rw [h1]; decide), if_neg (by rw [h2]; decide), if_pos h3]
  · intro h1 h2 h3 h4
    rw [familyOf, if_neg (by rw [h1]; decide), if_neg (by rw [h2]; decide), if_neg (by rw [h3]; decide),
      if_pos h4]
  · intro h1 h2 h3 h4
    rw [familyOf, if_neg (by rw [h1]; decide), if_neg (by rw [h2]; decide), if_neg (by rw [h3]; decide),
      if_neg (by rw [h4]; decide)]

/-- Witness for C6 at a concrete worker-pool basename. -/
theorem family_first_match_witness :
    familyOf "problems-host1-main-process-3.ndjson".toList = "problems" :=
  (family_first_match "problems-host1-main-process-3.ndjson".toList).1 (by decide)

/-- C8: on every broadcast, a sink that is already closed or ended is
unregistered and skipped; a sink whose pending outbound byte count is at
or above the drop threshold (default 65536) keeps the registry entry but
the frame is dropped for it alone; a healthy sink receives the frame; and
each sink's outcome is independent of the others in the registry. -/
theorem broadcast_drop_policy (threshold : Nat) (xs ys : List Sink) (s : Sink)
    (event data : String) (id : Option Nat) :
    broadcast threshold (xs ++ s :: ys) event data id
        = broadcast threshold xs event data id
          ++ (safeWrite threshold s (framePkt event data id)).toList
          ++ broadcast threshold ys event data id
      ∧ ((s.writableEnded || s.destroyed || !s.writable) = true →
          safeWrite threshold s (framePkt event data id) = none)
      ∧ ((s.writableEnded || s.destroyed || !s.writable) = false →
          threshold ≤ s.pending →
          safeWrite threshold s (framePkt event data id) = some s)
      ∧ ((s.writableEnded || s.destroyed || !s.writable) = false →
          s.pending < threshold →
          safeWrite threshold s (framePkt event data id)
            = some { s with
                written := s.written ++ [framePkt event data id]
                pending := s.pending + (framePkt event data id).length })
      ∧ sseDropThresholdDefault = 65536 := by
  refine ⟨?_, ?_, ?_, ?_, rfl⟩
  · rw [broadcast, List.filterMap_append, List.filterMap_cons]
    match h : safeWrite threshold s (framePkt event data id) with
    | none => simp [broadcast, h]
    | some s' => simp [broadcast, h]
  · intro h
    rw [safeWrite, if_pos h]
  · intro h hle
    rw [safeWrite, if_neg (by rw [h]; decide), if_pos hle]
  · intro h hlt
    rw [safeWrite, if_neg (by rw [h]; decide), if_neg (by omega)]

/-- Witness for C8: a dead sink, a backlogged sink and a healthy sink. -/
theorem broadcast_drop_policy_witness :
    (broadcast 5 ([⟨true, false, true, 0, []⟩]
          ++ ⟨false, false, true, 10, []⟩ :: [⟨false, false, true, 0, []⟩]) "e" "d" (some 1)
        = broadcast 5 [⟨true, false, true, 0, []⟩] "e" "d" (some 1)
          ++ (safeWrite 5 ⟨false, false, true, 10, []⟩ (framePkt "e" "d" (some 1))).toList
          ++ broadcast 5 [⟨false, false, true, 0, []⟩] "e" "d" (some 1))
      ∧ safeWrite 5 ⟨false, false, true, 10, []⟩ (framePkt "e" "d" (some 1))
          = some ⟨false, false, true, 10, []⟩ :=
  ⟨(broadcast_drop_policy 5 [⟨true, false, true, 0, []⟩] [⟨false, false, true, 0, []⟩]
      ⟨false, false, true, 10, []⟩ "e" "d" (some 1)).1,
   (broadcast_drop_policy 5 [⟨true, false, true, 0, []⟩] [⟨false, false, true, 0, []⟩]
      ⟨false, false, true, 10, []⟩ "e" "d" (some 1)).2.2.1 (by decide) (by decide)⟩

/-- C9 (as stated) fails: with `RB_CAPACITY` unset the ring buffer is
constructed with capacity 1000, not 50000. -/
theorem default_capacity_counterexample :
    (mkRing defaultRbCapacity).cap ≠ 50000 := by
  decide

/-- C9 amended: when `RB_CAPACITY` is not set, the ring buffer is
constructed with capacity 1000. -/
theorem default_capacity_is_1000 :
    (mkRing defaultRbCapacity).cap = 1000 ∧ defaultRbCapacity = 1000 := by
  decide
